import Mathlib

/-!
Verification of the FastLanes bit-packing codec (src/lib.rs, src/bitpacking.rs).

Machine integers are modelled as `Nat` with explicit `% 2 ^ T` where wrapping
matters.  A 1024-element block is a function `Nat → Nat` (only indices `< 1024`
are ever read); buffers handed to the width dispatchers are `List Nat`.
A Rust panic is modelled as `Except.error buf` carrying the buffer contents at
the moment of the panic; a completed call is `Except.ok buf`.
-/

namespace FastLanes

/-- The row-order permutation `FL_ORDER` from src/lib.rs line 19. -/
def FL_ORDER : List Nat := [0, 4, 2, 6, 1, 5, 3, 7]

/-- Array indexing into `FL_ORDER` (total; in-range everywhere it is used). -/
def flOrder (o : Nat) : Nat := FL_ORDER.getD o 0

/-- `LANES = 1024 / T` from the `FastLanes` trait in src/lib.rs. -/
def LANES (T : Nat) : Nat := 1024 / T

/-- The FastLanes index function, from the kernel macros as documented in
src/bitpacking.rs lines 2730-2734:
`index(row, lane) = FL_ORDER[row / 8] * 16 + (row % 8) * 128 + lane`. -/
def index (row lane : Nat) : Nat :=
  flOrder (row / 8) * 16 + row % 8 * 128 + lane

/-- Translation of `lanes_by_index` (src/bitpacking.rs lines 2717-2723):
`lane_of i = i % LANES`. -/
def lanes_by_index (T i : Nat) : Nat := i % LANES T

/-- Translation of `rows_by_index` (src/bitpacking.rs lines 2726-2742), the
inverse of `index`, using `FL_ORDER` as its own inverse. -/
def rows_by_index (T i : Nat) : Nat :=
  let lane := i % LANES T
  let s := i / 128
  let fl := (i - s * 128 - lane) / 16
  flOrder fl * 8 + s

/-- Modelled from the spec: the per-lane bit stream of the `pack!` kernel macro
(the macro lives in src/macros.rs, which is absent from the tree).  Per spec
§4.3/§6, lane `lane` carries the `T` source elements `in[index(row, lane)]`,
each masked to `W` bits, concatenated at bit offsets `row * W`. -/
def laneStream (T W : Nat) (inp : Nat → Nat) (lane : Nat) : Nat :=
  ∑ row ∈ Finset.range T, inp (index row lane) % 2 ^ W * 2 ^ (row * W)

/-- Modelled from the spec: the `w`-th packed output word of lane `lane`
(spec §6: `T` consecutive bits `[w*T, (w+1)*T)` of the lane's bit stream). -/
def packWord (T W : Nat) (inp : Nat → Nat) (w lane : Nat) : Nat :=
  laneStream T W inp lane / 2 ^ (w * T) % 2 ^ T

/-- Modelled from the spec: the packed buffer as a function of the linear
position `j`; spec §4.3: the `w`-th word of lane `lane` lives at
`out[LANES * w + lane]`. -/
def packFn (T W : Nat) (inp : Nat → Nat) (j : Nat) : Nat :=
  packWord T W inp (j / LANES T) (j % LANES T)

/-- Modelled from the spec: the packed block as a list of `1024 * W / T`
words (spec §4.3, missing `pack!` macro from src/macros.rs). -/
def packedList (T W : Nat) (inp : Nat → Nat) : List Nat :=
  (List.range (1024 * W / T)).map (packFn T W inp)

/-- Modelled from the spec: the write trace of the `pack!` kernel
(src/macros.rs, absent): the outer loop runs over lanes
(`for lane in 0..LANES`), and for each lane the kernel emits the lane's `W`
output words, the `w`-th at position `LANES * w + lane` (spec §4.3). -/
def packWrites (T W : Nat) (inp : Nat → Nat) : List (Nat × Nat) :=
  (List.range (LANES T)).flatMap fun lane =>
    (List.range W).map fun w => (LANES T * w + lane, packWord T W inp w lane)

/-- Modelled from the spec: the bit stream of lane `lane` reassembled from a
packed buffer (spec §4.4: word `w` of lane `lane` is read from
`in[LANES * w + lane]`). -/
def packedStream (T W : Nat) (packed : Nat → Nat) (lane : Nat) : Nat :=
  ∑ w ∈ Finset.range W, packed (LANES T * w + lane) * 2 ^ (w * T)

/-- Modelled from the spec: the element the `unpack!` kernel (src/macros.rs,
absent) stores at `out[index(row, lane)]`: the `W` bits of the lane's stream
starting at bit `row * W` (spec §4.4). -/
def unpackValue (T W : Nat) (packed : Nat → Nat) (row lane : Nat) : Nat :=
  packedStream T W packed lane / 2 ^ (row * W) % 2 ^ W

/-- Modelled from the spec: the unpacked block as a function of the logical
position `i = index(row, lane)` (spec §4.4 guarantee:
`out[i]` is the packed value at `(lane_of i, row_of i)`). -/
def unpackFn (T W : Nat) (packed : Nat → Nat) (i : Nat) : Nat :=
  unpackValue T W packed (rows_by_index T i) (lanes_by_index T i)

/-- Modelled from the spec: the write trace of the `unpack!` kernel
(src/macros.rs, absent): for each lane, the kernel stores the lane's `T`
elements at `out[index(row, lane)]` (spec §4.4). -/
def unpackWrites (T W : Nat) (packed : Nat → Nat) : List (Nat × Nat) :=
  (List.range (LANES T)).flatMap fun lane =>
    (List.range T).map fun row => (index row lane, unpackValue T W packed row lane)

/-- Replay a list of (position, value) writes onto a buffer.  A write to a
position beyond the buffer's length is impossible in the Rust code (it would
be an out-of-bounds store); `List.set` ignores it, and no theorem below
depends on that case. -/
def applyWrites (ws : List (Nat × Nat)) (init : List Nat) : List Nat :=
  ws.foldl (fun acc p => acc.set p.1 p.2) init

/-- Translation of `unpack_single` from src/bitpacking.rs lines 2640-2687:
random access to the element at logical position `idx` of a packed block.
Rust's `>>`/`<<`/`&`/`|` on a `T`-bit word become `>>>`, `<<<` with an
explicit `% 2 ^ T`, `&&&`, `|||` on `Nat`. -/
def unpack_single (T W : Nat) (packed : Nat → Nat) (idx : Nat) : Nat :=
  if W = 0 then 0
  else
    let lane := lanes_by_index T idx
    let row := rows_by_index T idx
    if W = T then packed (LANES T * row + lane)
    else
      let mask := 2 ^ (W % T) - 1
      let start_bit := row * W
      let start_word := start_bit / T
      let lo_shift := start_bit % T
      let remaining_bits := T - lo_shift
      let lo := packed (LANES T * start_word + lane) >>> lo_shift
      if remaining_bits ≥ W then lo &&& mask
      else
        let hi := packed (LANES T * (start_word + 1) + lane) <<< remaining_bits % 2 ^ T
        (lo ||| hi) &&& mask

/-- The width dispatcher `BitPacking::unchecked_pack` (src/bitpacking.rs lines
59-76, 99-125, 156-197, 244-317; the four impls differ only in `T`).  The
`match width` arms cover exactly `1 ..= T`, each calling the `pack_T_W` kernel
on `array_ref![input, 0, 1024]` and `array_mut_ref![output, 0, 1024*W/T]`;
every other width falls to `_ => unreachable!("Unsupported width")`, a panic
also in release builds.  The `array_ref!` bounds checks panic before the
kernel runs; a panic returns `Except.error` carrying the untouched buffer.
The kernel body itself is the spec-modelled `packWrites` trace. -/
def uncheckedPack (T width : Nat) (input output : List Nat) :
    Except (List Nat) (List Nat) :=
  if 1 ≤ width ∧ width ≤ T then
    if 1024 ≤ input.length then
      if 1024 * width / T ≤ output.length then
        Except.ok
          (applyWrites (packWrites T width fun i => input.getD i 0)
              (output.take (1024 * width / T)) ++
            output.drop (1024 * width / T))
      else Except.error output
    else Except.error output
  else Except.error output

/-- The width dispatcher `BitPacking::unchecked_unpack` (src/bitpacking.rs
lines 78-95, 127-152, 199-240, 319-394), modelled exactly like
`uncheckedPack`: arms `1 ..= T` call `unpack_T_W` on
`array_ref![input, 0, 1024*W/T]` and `array_mut_ref![output, 0, 1024]`;
any other width panics at the `unreachable!` arm. -/
def uncheckedUnpack (T width : Nat) (input output : List Nat) :
    Except (List Nat) (List Nat) :=
  if 1 ≤ width ∧ width ≤ T then
    if 1024 * width / T ≤ input.length then
      if 1024 ≤ output.length then
        Except.ok
          (applyWrites (unpackWrites T width fun j => input.getD j 0)
              (output.take 1024) ++
            output.drop 1024)
      else Except.error output
    else Except.error output
  else Except.error output

/-- The supported base types: `u8`, `u16`, `u32`, `u64`. -/
def goodT (T : Nat) : Prop := T = 8 ∨ T = 16 ∨ T = 32 ∨ T = 64

/-! ### Base-`b` digit arithmetic -/

lemma sum_digits_lt (b : Nat) (d : Nat → Nat) :
    ∀ N, (∀ r, r < N → d r < b) → ∑ r ∈ Finset.range N, d r * b ^ r < b ^ N := by
  intro N
  induction N with
  | zero => simp
  | succ n ih =>
    intro h
    have h1 : ∑ r ∈ Finset.range n, d r * b ^ r < b ^ n :=
      ih fun r hr => h r (hr.trans (Nat.lt_succ_self n))
    have h2 : d n < b := h n (Nat.lt_succ_self n)
    calc ∑ r ∈ Finset.range (n + 1), d r * b ^ r
        = (∑ r ∈ Finset.range n, d r * b ^ r) + d n * b ^ n :=
          Finset.sum_range_succ _ _
      _ < b ^ n + d n * b ^ n := Nat.add_lt_add_right h1 _
      _ = (d n + 1) * b ^ n := by ring
      _ ≤ b * b ^ n := Nat.mul_le_mul_right _ h2
      _ = b ^ (n + 1) := by rw [pow_succ]; ring

lemma shift_sum_digits (b : Nat) (d : Nat → Nat) (m : Nat) :
    ∑ r ∈ Finset.range m, d (r + 1) * b ^ (r + 1) =
      b * ∑ r ∈ Finset.range m, d (r + 1) * b ^ r := by
  rw [Finset.mul_sum]
  exact Finset.sum_congr rfl fun r _ => by ring

lemma digit_extract (b : Nat) :
    ∀ (k : Nat) (d : Nat → Nat) (N : Nat), k < N → (∀ r, r < N → d r < b) →
      (∑ r ∈ Finset.range N, d r * b ^ r) / b ^ k % b = d k := by
  intro k
  induction k with
  | zero =>
    intro d N hk hd
    obtain ⟨m, rfl⟩ : ∃ m, N = m + 1 := ⟨N - 1, by omega⟩
    rw [Finset.sum_range_succ', shift_sum_digits, pow_zero, mul_one,
      Nat.div_one, Nat.mul_add_mod]
    exact Nat.mod_eq_of_lt (hd 0 (by omega))
  | succ k ih =>
    intro d N hk hd
    obtain ⟨m, rfl⟩ : ∃ m, N = m + 1 := ⟨N - 1, by omega⟩
    have hb : 0 < b := Nat.lt_of_le_of_lt (Nat.zero_le _) (hd 0 (by omega))
    rw [Finset.sum_range_succ', shift_sum_digits, pow_zero, mul_one, pow_succ',
      ← Nat.div_div_eq_div_mul, Nat.mul_add_div hb,
      Nat.div_eq_of_lt (hd 0 (by omega)), Nat.add_zero]
    exact ih (fun r => d (r + 1)) m (by omega) fun r hr => hd (r + 1) (by omega)

lemma digit_rebuild (b n : Nat) :
    ∀ W, ∑ w ∈ Finset.range W, n / b ^ w % b * b ^ w = n % b ^ W := by
  intro W
  induction W with
  | zero => simp [Nat.mod_one]
  | succ w ih =>
    rw [Finset.sum_range_succ, ih, pow_succ, Nat.mod_mul]
    ring

/-! ### Per-type facts about the index map, checked by evaluation -/

/-- The inverse relationship between `index` and the two lookup tables,
as a decidable proposition in `T`. -/
abbrev invProps (T : Nat) : Prop :=
  (∀ i < 1024, rows_by_index T i < T ∧ lanes_by_index T i < LANES T ∧
    index (rows_by_index T i) (lanes_by_index T i) = i) ∧
  ∀ row < T, ∀ lane < LANES T, index row lane < 1024 ∧
    rows_by_index T (index row lane) = row ∧
    lanes_by_index T (index row lane) = lane

set_option maxRecDepth 40000 in
lemma invProps8 : invProps 8 := by decide

set_option maxRecDepth 40000 in
lemma invProps16 : invProps 16 := by decide

set_option maxRecDepth 40000 in
lemma invProps32 : invProps 32 := by decide

set_option maxRecDepth 40000 in
lemma invProps64 : invProps 64 := by decide

lemma invProps_of {T : Nat} (hT : goodT T) : invProps T := by
  rcases hT with rfl | rfl | rfl | rfl
  · exact invProps8
  · exact invProps16
  · exact invProps32
  · exact invProps64

lemma lanes_pos {T : Nat} (hT : goodT T) : 0 < LANES T := by
  rcases hT with rfl | rfl | rfl | rfl <;> decide

lemma packed_len_eq {T : Nat} (hT : goodT T) (W : Nat) :
    1024 * W / T = LANES T * W := by
  rcases hT with rfl | rfl | rfl | rfl <;> simp only [LANES] <;> omega

/-! ### Replaying write traces -/

lemma applyWrites_nil (init : List Nat) : applyWrites [] init = init := rfl

lemma applyWrites_cons (p : Nat × Nat) (ws : List (Nat × Nat)) (init : List Nat) :
    applyWrites (p :: ws) init = applyWrites ws (init.set p.1 p.2) := rfl

lemma length_applyWrites (ws : List (Nat × Nat)) :
    ∀ init : List Nat, (applyWrites ws init).length = init.length := by
  induction ws with
  | nil => intro init; rfl
  | cons p t ih => intro init; rw [applyWrites_cons, ih]; simp

lemma getD_set_self {init : List Nat} {j : Nat} (v : Nat) (hj : j < init.length) :
    (init.set j v).getD j 0 = v := by
  rw [List.getD_eq_getElem?_getD, List.getElem?_set_self hj]; rfl

lemma getD_set_ne {init : List Nat} {k j : Nat} (v : Nat) (hkj : k ≠ j) :
    (init.set k v).getD j 0 = init.getD j 0 := by
  rw [List.getD_eq_getElem?_getD, List.getElem?_set_ne hkj, ← List.getD_eq_getElem?_getD]

lemma getD_applyWrites (ws : List (Nat × Nat)) :
    ∀ (init : List Nat) (j : Nat), j < init.length →
      (applyWrites ws init).getD j 0 =
        (ws.filter fun p => p.1 == j).foldl (fun _ p => p.2) (init.getD j 0) := by
  induction ws with
  | nil => intro init j hj; rfl
  | cons p t ih =>
    intro init j hj
    rw [applyWrites_cons, ih (init.set p.1 p.2) j (by simpa using hj)]
    by_cases hpj : p.1 = j
    · subst hpj
      rw [List.filter_cons_of_pos (by simp)]
      rw [getD_set_self p.2 hj]
      rfl
    · rw [List.filter_cons_of_neg (by simpa using hpj), getD_set_ne p.2 hpj]

lemma getD_applyWrites_single {ws : List (Nat × Nat)} {init : List Nat} {j v : Nat}
    (hj : j < init.length) (hf : ws.filter (fun p => p.1 == j) = [(j, v)]) :
    (applyWrites ws init).getD j 0 = v := by
  rw [getD_applyWrites ws init j hj, hf]; rfl

lemma eq_of_length_getD {l1 l2 : List Nat} (hl : l1.length = l2.length)
    (h : ∀ j, j < l1.length → l1.getD j 0 = l2.getD j 0) : l1 = l2 := by
  apply List.ext_getElem hl
  intro n h1 h2
  have hh := h n h1
  rw [List.getD_eq_getElem?_getD, List.getD_eq_getElem?_getD,
    List.getElem?_eq_getElem h1, List.getElem?_eq_getElem h2] at hh
  simpa using hh

lemma getD_map_range (f : Nat → Nat) {j n : Nat} (h : j < n) :
    ((List.range n).map f).getD j 0 = f j := by
  rw [List.getD_eq_getElem?_getD, List.getElem?_map, List.getElem?_range h]; rfl

/-! ### Locating a position inside the kernel write traces -/

lemma filter_map_range_nil {α : Type} (f : Nat → α) (p : α → Bool) :
    ∀ n, (∀ r, r < n → p (f r) = false) → ((List.range n).map f).filter p = [] := by
  intro n
  induction n with
  | zero => intro _; rfl
  | succ m ih =>
    intro h
    rw [List.range_succ, List.map_append, List.filter_append, ih fun r hr => h r (by omega)]
    simp [h m (by omega)]

lemma filter_map_range_single {α : Type} (f : Nat → α) (p : α → Bool) (r0 : Nat)
    (ht : p (f r0) = true) :
    ∀ n, r0 < n → (∀ r, r < n → r ≠ r0 → p (f r) = false) →
      ((List.range n).map f).filter p = [f r0] := by
  intro n
  induction n with
  | zero => intro h0 _; omega
  | succ m ih =>
    intro h0 h
    rw [List.range_succ, List.map_append, List.filter_append]
    by_cases hm : r0 = m
    · subst hm
      rw [filter_map_range_nil f p r0 fun r hr => h r (by omega) (by omega)]
      simp [ht]
    · rw [ih (by omega) fun r hr hne => h r (by omega) hne]
      simp [h m (by omega) fun e => hm e.symm]

lemma flatMap_range_nil {α : Type} (g : Nat → List α) :
    ∀ n, (∀ r, r < n → g r = []) → (List.range n).flatMap g = [] := by
  intro n
  induction n with
  | zero => intro _; rfl
  | succ m ih =>
    intro h
    rw [List.range_succ, List.flatMap_append, ih fun r hr => h r (by omega)]
    simp [h m (by omega)]

lemma flatMap_range_eq {α : Type} (g : Nat → List α) (a0 : Nat) :
    ∀ n, a0 < n → (∀ r, r < n → r ≠ a0 → g r = []) → (List.range n).flatMap g = g a0 := by
  intro n
  induction n with
  | zero => intro h0 _; omega
  | succ m ih =>
    intro h0 h
    rw [List.range_succ, List.flatMap_append]
    by_cases hm : a0 = m
    · subst hm
      rw [flatMap_range_nil g a0 fun r hr => h r (by omega) (by omega)]
      simp
    · rw [ih (by omega) fun r hr hne => h r (by omega) hne]
      simp [h m (by omega) fun e => hm e.symm]

lemma packWrites_filter {T W : Nat} (inp : Nat → Nat) {j : Nat}
    (hL : 0 < LANES T) (hj : j < LANES T * W) :
    (packWrites T W inp).filter (fun p => p.1 == j) = [(j, packFn T W inp j)] := by
  have hlane : j % LANES T < LANES T := Nat.mod_lt _ hL
  have hw : j / LANES T < W := by
    rw [Nat.mul_comm] at hj
    exact (Nat.div_lt_iff_lt_mul hL).2 hj
  have hsplit : LANES T * (j / LANES T) + j % LANES T = j := Nat.div_add_mod j (LANES T)
  unfold packWrites
  rw [List.filter_flatMap]
  rw [flatMap_range_eq _ (j % LANES T) (LANES T) hlane ?side]
  case side =>
    intro lane' h1 h2
    apply filter_map_range_nil
    intro w hw'
    rw [beq_eq_false_iff_ne]
    intro e
    apply h2
    have hmod : (LANES T * w + lane') % LANES T = lane' := by
      rw [Nat.mul_add_mod, Nat.mod_eq_of_lt h1]
    simp only at e
    rw [← e, hmod]
  have hother : ∀ w, w < W → w ≠ j / LANES T →
      ((fun p : Nat × Nat => p.1 == j) ((fun w => (LANES T * w + j % LANES T,
        packWord T W inp w (j % LANES T))) w)) = false := by
    intro w hw' hne
    rw [beq_eq_false_iff_ne]
    intro e
    apply hne
    have h1 : (LANES T * w + j % LANES T) / LANES T = w := by
      rw [Nat.mul_add_div hL, Nat.div_eq_of_lt hlane, Nat.add_zero]
    simp only at e
    rw [← e, h1]
  rw [filter_map_range_single _ _ (j / LANES T) (by simpa using hsplit) W hw hother]
  show [(LANES T * (j / LANES T) + j % LANES T, _)] = _
  rw [hsplit]
  rfl

lemma unpackWrites_filter {T W : Nat} (pf : Nat → Nat) {i : Nat}
    (hT : goodT T) (hi : i < 1024) :
    (unpackWrites T W pf).filter (fun p => p.1 == i) = [(i, unpackFn T W pf i)] := by
  obtain ⟨inv1, inv2⟩ := invProps_of hT
  obtain ⟨hrow, hlane, hidx⟩ := inv1 i hi
  unfold unpackWrites
  rw [List.filter_flatMap]
  rw [flatMap_range_eq _ (lanes_by_index T i) (LANES T) hlane ?side]
  case side =>
    intro lane' h1 h2
    apply filter_map_range_nil
    intro row hrowlt
    rw [beq_eq_false_iff_ne]
    intro e
    apply h2
    have hv := (inv2 row hrowlt lane' h1).2.2
    simp only at e
    rw [e] at hv
    exact hv.symm
  have hother : ∀ row, row < T → row ≠ rows_by_index T i →
      ((fun p : Nat × Nat => p.1 == i) ((fun row => (index row (lanes_by_index T i),
        unpackValue T W pf row (lanes_by_index T i))) row)) = false := by
    intro row hrowlt hne
    rw [beq_eq_false_iff_ne]
    intro e
    apply hne
    have := (inv2 row hrowlt (lanes_by_index T i) hlane).2.1
    simp only at e
    rw [e] at this
    exact this.symm
  rw [filter_map_range_single _ _ (rows_by_index T i) (by simpa using hidx) T hrow hother]
  show [(index (rows_by_index T i) (lanes_by_index T i), _)] = _
  rw [hidx]
  rfl

lemma applyWrites_packWrites {T W : Nat} (inp : Nat → Nat) (init : List Nat)
    (hL : 0 < LANES T) (hlen : init.length = LANES T * W) :
    applyWrites (packWrites T W inp) init =
      (List.range (LANES T * W)).map (packFn T W inp) := by
  apply eq_of_length_getD
  · rw [length_applyWrites, hlen]; simp
  · intro j hj
    rw [length_applyWrites] at hj
    have hj' : j < LANES T * W := by omega
    rw [getD_applyWrites_single hj (packWrites_filter inp hL hj'), getD_map_range _ hj']

lemma applyWrites_unpackWrites {T W : Nat} (pf : Nat → Nat) (init : List Nat)
    (hT : goodT T) (hlen : init.length = 1024) :
    applyWrites (unpackWrites T W pf) init =
      (List.range 1024).map (unpackFn T W pf) := by
  apply eq_of_length_getD
  · rw [length_applyWrites, hlen]; simp
  · intro j hj
    rw [length_applyWrites] at hj
    have hj' : j < 1024 := by omega
    rw [getD_applyWrites_single hj (unpackWrites_filter pf hT hj'), getD_map_range _ hj']

/-! ### Kernel correctness: unpack inverts pack digit by digit -/

lemma laneStream_as_digits (T W : Nat) (inp : Nat → Nat) (lane : Nat) :
    laneStream T W inp lane =
      ∑ r ∈ Finset.range T, inp (index r lane) % 2 ^ W * (2 ^ W) ^ r := by
  unfold laneStream
  refine Finset.sum_congr rfl fun r _ => ?_
  rw [Nat.mul_comm r W, pow_mul]

lemma laneStream_lt (T W : Nat) (inp : Nat → Nat) (lane : Nat) :
    laneStream T W inp lane < (2 ^ W) ^ T := by
  rw [laneStream_as_digits]
  exact sum_digits_lt _ _ T fun r _ => Nat.mod_lt _ (pow_pos (by norm_num) W)

lemma packedStream_packFn {T W : Nat} (inp : Nat → Nat) {lane : Nat}
    (hL : 0 < LANES T) (hlane : lane < LANES T) :
    packedStream T W (packFn T W inp) lane = laneStream T W inp lane := by
  unfold packedStream
  have hterm : ∀ w, packFn T W inp (LANES T * w + lane) * 2 ^ (w * T) =
      laneStream T W inp lane / (2 ^ T) ^ w % 2 ^ T * (2 ^ T) ^ w := by
    intro w
    unfold packFn
    have h1 : (LANES T * w + lane) / LANES T = w := by
      rw [Nat.mul_add_div hL, Nat.div_eq_of_lt hlane, Nat.add_zero]
    have h2 : (LANES T * w + lane) % LANES T = lane := by
      rw [Nat.mul_add_mod, Nat.mod_eq_of_lt hlane]
    rw [h1, h2]
    unfold packWord
    rw [Nat.mul_comm w T, pow_mul]
  calc ∑ w ∈ Finset.range W, packFn T W inp (LANES T * w + lane) * 2 ^ (w * T)
      = ∑ w ∈ Finset.range W,
          laneStream T W inp lane / (2 ^ T) ^ w % 2 ^ T * (2 ^ T) ^ w :=
        Finset.sum_congr rfl fun w _ => hterm w
    _ = laneStream T W inp lane % (2 ^ T) ^ W := digit_rebuild _ _ W
    _ = laneStream T W inp lane := by
        apply Nat.mod_eq_of_lt
        calc laneStream T W inp lane < (2 ^ W) ^ T := laneStream_lt T W inp lane
          _ = (2 ^ T) ^ W := by rw [← pow_mul, Nat.mul_comm, pow_mul]

lemma unpackValue_packFn {T W : Nat} (inp : Nat → Nat) {row lane : Nat}
    (hL : 0 < LANES T) (hlane : lane < LANES T) (hrow : row < T) :
    unpackValue T W (packFn T W inp) row lane = inp (index row lane) % 2 ^ W := by
  unfold unpackValue
  rw [packedStream_packFn inp hL hlane, laneStream_as_digits, Nat.mul_comm row W, pow_mul]
  exact digit_extract (2 ^ W) row (fun r => inp (index r lane) % 2 ^ W) T hrow
    fun r _ => Nat.mod_lt _ (pow_pos (by norm_num) W)

lemma unpackFn_packFn {T W : Nat} (hT : goodT T) (inp : Nat → Nat) {i : Nat}
    (hi : i < 1024) :
    unpackFn T W (packFn T W inp) i = inp i % 2 ^ W := by
  obtain ⟨inv1, _⟩ := invProps_of hT
  obtain ⟨hrow, hlane, hidx⟩ := inv1 i hi
  unfold unpackFn
  rw [unpackValue_packFn inp (lanes_pos hT) hlane hrow, hidx]

/-! ### Congruence: the kernels read only in-bounds data -/

lemma map_range_congr {α : Type} (F G : Nat → α) :
    ∀ n, (∀ r, r < n → F r = G r) → (List.range n).map F = (List.range n).map G := by
  intro n
  induction n with
  | zero => intro _; rfl
  | succ m ih =>
    intro h
    rw [List.range_succ, List.map_append, List.map_append,
      ih fun r hr => h r (by omega)]
    simp [h m (by omega)]

lemma flatMap_range_congr {α : Type} (F G : Nat → List α) :
    ∀ n, (∀ r, r < n → F r = G r) → (List.range n).flatMap F = (List.range n).flatMap G := by
  intro n
  induction n with
  | zero => intro _; rfl
  | succ m ih =>
    intro h
    rw [List.range_succ, List.flatMap_append, List.flatMap_append,
      ih fun r hr => h r (by omega)]
    simp [h m (by omega)]

lemma laneStream_congr {T W : Nat} {f g : Nat → Nat} {lane : Nat} (hT : goodT T)
    (hfg : ∀ k, k < 1024 → f k = g k) (hlane : lane < LANES T) :
    laneStream T W f lane = laneStream T W g lane := by
  obtain ⟨_, inv2⟩ := invProps_of hT
  unfold laneStream
  refine Finset.sum_congr rfl fun r hr => ?_
  rw [hfg _ (inv2 r (Finset.mem_range.1 hr) lane hlane).1]

lemma packWrites_congr {T W : Nat} {f g : Nat → Nat} (hT : goodT T)
    (hfg : ∀ k, k < 1024 → f k = g k) :
    packWrites T W f = packWrites T W g := by
  unfold packWrites
  apply flatMap_range_congr
  intro lane hlane
  apply map_range_congr
  intro w _
  unfold packWord
  rw [laneStream_congr hT hfg hlane]

lemma packedStream_congr {T W : Nat} {f g : Nat → Nat} {lane : Nat}
    (hfg : ∀ k, k < LANES T * W → f k = g k) (hlane : lane < LANES T) :
    packedStream T W f lane = packedStream T W g lane := by
  unfold packedStream
  refine Finset.sum_congr rfl fun w hw => ?_
  have hw' : w < W := Finset.mem_range.1 hw
  have : LANES T * w + lane < LANES T * W := by
    calc LANES T * w + lane < LANES T * w + LANES T := by omega
      _ = LANES T * (w + 1) := by ring
      _ ≤ LANES T * W := Nat.mul_le_mul_left _ (by omega)
  rw [hfg _ this]

lemma unpackFn_congr {T W : Nat} {f g : Nat → Nat} (hT : goodT T)
    (hfg : ∀ k, k < LANES T * W → f k = g k) {i : Nat} (hi : i < 1024) :
    unpackFn T W f i = unpackFn T W g i := by
  obtain ⟨inv1, _⟩ := invProps_of hT
  unfold unpackFn unpackValue
  rw [packedStream_congr hfg (inv1 i hi).2.1]

/-! ### The dispatchers on valid calls -/

lemma uncheckedPack_ok {T W : Nat} (hT : goodT T) (hW1 : 1 ≤ W) (hW : W ≤ T)
    (input pInit : List Nat) (hin : 1024 ≤ input.length)
    (hp : pInit.length = 1024 * W / T) :
    uncheckedPack T W input pInit =
      Except.ok (packedList T W fun i => input.getD i 0) := by
  unfold uncheckedPack
  rw [if_pos ⟨hW1, hW⟩, if_pos hin, if_pos (le_of_eq hp.symm)]
  congr 1
  rw [List.take_of_length_le (le_of_eq hp), List.drop_eq_nil_of_le (le_of_eq hp),
    List.append_nil,
    applyWrites_packWrites _ _ (lanes_pos hT) (by rw [hp, packed_len_eq hT W])]
  unfold packedList
  rw [packed_len_eq hT W]

lemma uncheckedUnpack_ok {T W : Nat} (hW1 : 1 ≤ W) (hW : W ≤ T)
    (hT : goodT T) (packed uInit : List Nat)
    (hpk : 1024 * W / T ≤ packed.length) (hu : uInit.length = 1024) :
    uncheckedUnpack T W packed uInit =
      Except.ok ((List.range 1024).map (unpackFn T W fun j => packed.getD j 0)) := by
  unfold uncheckedUnpack
  rw [if_pos ⟨hW1, hW⟩, if_pos hpk, if_pos (le_of_eq hu.symm),
    List.take_of_length_le (le_of_eq hu), List.drop_eq_nil_of_le (le_of_eq hu),
    List.append_nil, applyWrites_unpackWrites _ _ hT hu]

lemma unpackWrites_congr {T W : Nat} {f g : Nat → Nat} (hT : goodT T)
    (hfg : ∀ k, k < LANES T * W → f k = g k) :
    unpackWrites T W f = unpackWrites T W g := by
  unfold unpackWrites
  apply flatMap_range_congr
  intro lane hlane
  apply map_range_congr
  intro row _
  unfold unpackValue
  rw [packedStream_congr hfg hlane]

/-! ### Counting the pack write positions -/

lemma packWrites_pos_lt {T W : Nat} (inp : Nat → Nat) {p : Nat × Nat}
    (hp : p ∈ packWrites T W inp) : p.1 < LANES T * W := by
  unfold packWrites at hp
  rw [List.mem_flatMap] at hp
  obtain ⟨lane, hlane, hp⟩ := hp
  rw [List.mem_map] at hp
  obtain ⟨w, hw, rfl⟩ := hp
  rw [List.mem_range] at hlane hw
  calc LANES T * w + lane < LANES T * w + LANES T := by omega
    _ = LANES T * (w + 1) := by ring
    _ ≤ LANES T * W := Nat.mul_le_mul_left _ (by omega)

lemma packWrites_positions_perm {T W : Nat} (inp : Nat → Nat) (hL : 0 < LANES T) :
    ((packWrites T W inp).map Prod.fst).Perm (List.range (LANES T * W)) := by
  rw [List.perm_iff_count]
  intro j
  rw [List.count_eq_countP, List.countP_map, List.countP_eq_length_filter]
  by_cases hj : j < LANES T * W
  · rw [show (((· == j) ∘ Prod.fst) : Nat × Nat → Bool) = fun p => p.1 == j from rfl,
      packWrites_filter inp hL hj]
    rw [List.count_eq_one_of_mem (List.nodup_range _) (List.mem_range.2 hj)]
    rfl
  · rw [show (((· == j) ∘ Prod.fst) : Nat × Nat → Bool) = fun p => p.1 == j from rfl]
    rw [List.filter_eq_nil_iff.2 ?nomem]
    case nomem =>
      intro p hp
      have := packWrites_pos_lt inp hp
      simp only [beq_iff_eq]
      omega
    rw [List.count_eq_zero_of_not_mem (by rw [List.mem_range]; omega)]
    rfl

/-! ### Claim theorems -/

/-- C10: the permutation `FL_ORDER = [0, 4, 2, 6, 1, 5, 3, 7]` is an
involution: `FL_ORDER[FL_ORDER[o]] = o` for every `o < 8`, so `FL_ORDER` is
its own inverse and no separate inverse table is needed. -/
theorem fl_order_involution : ∀ o, o < 8 → flOrder (flOrder o) = o := by decide

/-- Witness for `fl_order_involution` at `o = 3`. -/
theorem fl_order_involution_witness : flOrder (flOrder 3) = 3 :=
  fl_order_involution 3 (by decide)

/-- C5: for every base type `T`, the map `(row, lane) ↦ index row lane`
restricted to `row < T`, `lane < LANES T` is a bijection onto `[0, 1024)`,
with `rows_by_index` / `lanes_by_index` as its two-sided inverse. -/
theorem index_bijection (T : Nat) (hT : goodT T) :
    Set.BijOn (fun p : Nat × Nat => index p.1 p.2)
      {p : Nat × Nat | p.1 < T ∧ p.2 < LANES T} {i : Nat | i < 1024} ∧
    (∀ row, row < T → ∀ lane, lane < LANES T →
      rows_by_index T (index row lane) = row ∧
      lanes_by_index T (index row lane) = lane) ∧
    ∀ i, i < 1024 → rows_by_index T i < T ∧ lanes_by_index T i < LANES T ∧
      index (rows_by_index T i) (lanes_by_index T i) = i := by
  obtain ⟨inv1, inv2⟩ := invProps_of hT
  refine ⟨⟨?_, ?_, ?_⟩, ?_, inv1⟩
  · intro p hp
    exact (inv2 p.1 hp.1 p.2 hp.2).1
  · intro p hp q hq he
    have h1 := inv2 p.1 hp.1 p.2 hp.2
    have h2 := inv2 q.1 hq.1 q.2 hq.2
    simp only at he
    have e1 : p.1 = q.1 := by rw [← h1.2.1, ← h2.2.1, he]
    have e2 : p.2 = q.2 := by rw [← h1.2.2, ← h2.2.2, he]
    exact Prod.ext e1 e2
  · intro i hi
    exact ⟨(rows_by_index T i, lanes_by_index T i),
      ⟨(inv1 i hi).1, (inv1 i hi).2.1⟩, (inv1 i hi).2.2⟩
  · intro row hrow lane hlane
    exact ⟨(inv2 row hrow lane hlane).2.1, (inv2 row hrow lane hlane).2.2⟩

/-- Witness for `index_bijection` at `T = 8`, `i = 5`. -/
theorem index_bijection_witness :
    index (rows_by_index 8 5) (lanes_by_index 8 5) = 5 :=
  ((index_bijection 8 (Or.inl rfl)).2.2 5 (by decide)).2.2

/-- C4: the packed-block length is exactly `1024 * W / T` words: the packed
list has that length, it equals `LANES * W` (`W` words per lane), and the
dispatchers' required length `128 * width / size_of::<Self>()` (with
`size_of = T / 8` bytes) computes the same number for every supported `T`. -/
theorem packed_length_exact (T W : Nat) (hT : goodT T) (hW : W ≤ T)
    (inp : Nat → Nat) :
    128 * W / (T / 8) = 1024 * W / T ∧
    (packedList T W inp).length = 1024 * W / T ∧
    1024 * W / T = LANES T * W := by
  refine ⟨?_, ?_, packed_len_eq hT W⟩
  · rcases hT with rfl | rfl | rfl | rfl <;> omega
  · unfold packedList
    simp

/-- Witness for `packed_length_exact` at `T = 32`, `W = 10` (spec scenario S1:
packed length 320). -/
theorem packed_length_exact_witness :
    128 * 10 / (32 / 8) = 1024 * 10 / 32 :=
  (packed_length_exact 32 10 (Or.inr (Or.inr (Or.inl rfl))) (by decide)
    fun _ => 0).1

/-- C6: for every supported `T`, every `W ≤ T` and arbitrary block contents,
packing then unpacking yields `B i % 2 ^ W` at every position: high bits
beyond `W` are silently discarded, with no error. -/
theorem pack_unpack_truncates (T W : Nat) (hT : goodT T) (hW : W ≤ T)
    (B : Nat → Nat) (i : Nat) (hi : i < 1024) :
    unpackFn T W (packFn T W B) i = B i % 2 ^ W :=
  unpackFn_packFn hT B hi

/-- Witness for `pack_unpack_truncates`: `T = u8`, `W = 3`, overflowing
input `B k = k * 11`, position 5. -/
theorem pack_unpack_truncates_witness :
    unpackFn 8 3 (packFn 8 3 fun k => k * 11) 5 = 5 * 11 % 2 ^ 3 :=
  pack_unpack_truncates 8 3 (Or.inl rfl) (by decide) (fun k => k * 11) 5 (by decide)

/-- C8: for any width outside the dispatch arms (width 0 or width above `T`)
both dispatchers take the `unreachable!` arm: they panic deterministically,
in release builds too, and the output buffer is still untouched at the
moment of the panic (the error carries the unchanged buffer). -/
theorem invalid_width_panics (T width : Nat) (hT : goodT T)
    (hbad : width = 0 ∨ T < width) (input output : List Nat) :
    uncheckedPack T width input output = Except.error output ∧
    uncheckedUnpack T width input output = Except.error output := by
  have hc : ¬(1 ≤ width ∧ width ≤ T) := by omega
  constructor
  · unfold uncheckedPack
    rw [if_neg hc]
  · unfold uncheckedUnpack
    rw [if_neg hc]

/-- Witness for `invalid_width_panics`: `T = u8`, width 9. -/
theorem invalid_width_panics_witness :
    uncheckedPack 8 9 [] [] = Except.error [] :=
  (invalid_width_panics 8 9 (Or.inl rfl) (Or.inr (by decide)) [] []).1

/-- C2: contrary to the spec, width 0 is not accepted by the dispatchers of
any of the four base types: the `match width` arms start at 1, so width 0
falls to `unreachable!("Unsupported width: 0")` and the call panics instead
of being a no-op (pack) or zero-filling (unpack).  Only the (commented-out)
`unpack_single` defines width 0, returning 0. -/
theorem width_zero_dispatch_panics :
    uncheckedPack 8 0 (List.replicate 1024 0) [] = Except.error [] ∧
    uncheckedUnpack 8 0 [] (List.replicate 1024 0) =
      Except.error (List.replicate 1024 0) ∧
    uncheckedPack 16 0 (List.replicate 1024 0) [] = Except.error [] ∧
    uncheckedPack 32 0 (List.replicate 1024 0) [] = Except.error [] ∧
    uncheckedPack 64 0 (List.replicate 1024 0) [] = Except.error [] ∧
    unpack_single 8 0 (fun _ => 0) 0 = 0 :=
  ⟨rfl, rfl, rfl, rfl, rfl, rfl⟩

/-- C7: the pack kernel writes every position of its `1024 * W / T`-word
output exactly once (its write positions are a permutation of the full index
range) and never reads the output buffer: two `unchecked_pack` calls with the
same width and input but arbitrary differing initial output contents produce
identical results. -/
theorem pack_writes_once_deterministic (T W : Nat) (hT : goodT T) (hW : W ≤ T)
    (inp : Nat → Nat) :
    ((packWrites T W inp).map Prod.fst).Perm (List.range (1024 * W / T)) ∧
    ∀ input out out', input.length = 1024 →
      out.length = 1024 * W / T → out'.length = 1024 * W / T →
      uncheckedPack T W input out = uncheckedPack T W input out' := by
  constructor
  · rw [packed_len_eq hT W]
    exact packWrites_positions_perm inp (lanes_pos hT)
  · intro input out out' hin ho ho'
    rcases Nat.eq_zero_or_pos W with rfl | hW1
    · have h0 : (1024 : Nat) * 0 / T = 0 := by simp
      rw [h0] at ho ho'
      rw [List.length_eq_zero.1 ho, List.length_eq_zero.1 ho']
    · rw [uncheckedPack_ok hT hW1 hW input out (le_of_eq hin.symm) ho,
        uncheckedPack_ok hT hW1 hW input out' (le_of_eq hin.symm) ho']

/-- Witness for `pack_writes_once_deterministic` at `T = 8`, `W = 3`. -/
theorem pack_writes_once_deterministic_witness :
    ((packWrites 8 3 fun k => k).map Prod.fst).Perm (List.range (1024 * 3 / 8)) :=
  (pack_writes_once_deterministic 8 3 (Or.inl rfl) (by decide) fun k => k).1

/-- C1 counterexample: at `T = u8`, `W = 0` with the all-zero block (whose
elements are all `< 2 ^ 0`), `unchecked_pack` does not return a packed
result at all — it panics at the `unreachable!` arm — so the pack/unpack
round trip cannot yield the block back at width 0. -/
theorem roundtrip_width_zero_panics :
    (∀ i, i < 1024 → (List.replicate 1024 0).getD i 0 < 2 ^ 0) ∧
    ¬∃ packed, uncheckedPack 8 0 (List.replicate 1024 0) [] =
      Except.ok packed := by
  constructor
  · intro i hi
    rw [List.getD_eq_getElem?_getD, List.getElem?_replicate_of_lt hi]
    decide
  · rintro ⟨packed, h⟩
    exact Except.noConfusion h

/-- C1 (amended to widths `1 ≤ W ≤ T`): for every supported `T`, width
`W ∈ [1, T]` and block whose elements all fit in `W` bits, `unchecked_pack`
succeeds, and `unchecked_unpack` of its result returns exactly the input
block. -/
theorem roundtrip_dispatch (T W : Nat) (hT : goodT T) (hW1 : 1 ≤ W)
    (hW : W ≤ T) (input pInit uInit : List Nat) (hin : input.length = 1024)
    (hvals : ∀ i, i < 1024 → input.getD i 0 < 2 ^ W)
    (hp : pInit.length = 1024 * W / T) (hu : uInit.length = 1024) :
    uncheckedPack T W input pInit =
      Except.ok (packedList T W fun i => input.getD i 0) ∧
    uncheckedUnpack T W (packedList T W fun i => input.getD i 0) uInit =
      Except.ok input := by
  refine ⟨uncheckedPack_ok hT hW1 hW input pInit (le_of_eq hin.symm) hp, ?_⟩
  have hlen : (packedList T W fun i => input.getD i 0).length = 1024 * W / T := by
    unfold packedList
    simp
  rw [uncheckedUnpack_ok hW1 hW hT _ uInit (le_of_eq hlen.symm) hu]
  have hX : (List.range 1024).map
      (unpackFn T W fun j => (packedList T W fun i => input.getD i 0).getD j 0) =
      input := by
    apply eq_of_length_getD
    · simp [hin]
    · intro j hj
      have hj' : j < 1024 := by simpa using hj
      rw [getD_map_range _ hj']
      have hcong : unpackFn T W
          (fun k => (packedList T W fun i => input.getD i 0).getD k 0) j =
          unpackFn T W (packFn T W fun i => input.getD i 0) j := by
        apply unpackFn_congr hT _ hj'
        intro k hk
        have hk' : k < 1024 * W / T := by
          rw [packed_len_eq hT W]
          exact hk
        unfold packedList
        rw [getD_map_range _ hk']
      rw [hcong, unpackFn_packFn hT _ hj', Nat.mod_eq_of_lt (hvals j hj')]
  rw [hX]

/-- Witness for `roundtrip_dispatch` at `T = 8`, `W = 1`, the all-zero
block. -/
theorem roundtrip_dispatch_witness :
    uncheckedPack 8 1 (List.replicate 1024 0) (List.replicate 128 0) =
      Except.ok (packedList 8 1 fun i => (List.replicate 1024 0).getD i 0) ∧
    uncheckedUnpack 8 1 (packedList 8 1 fun i => (List.replicate 1024 0).getD i 0)
      (List.replicate 1024 0) = Except.ok (List.replicate 1024 0) :=
  roundtrip_dispatch 8 1 (Or.inl rfl) (by decide) (by decide)
    (List.replicate 1024 0) (List.replicate 128 0) (List.replicate 1024 0)
    (by rw [List.length_replicate])
    (fun i hi => by
      rw [List.getD_eq_getElem?_getD, List.getElem?_replicate_of_lt hi]
      decide)
    (by rw [List.length_replicate]) (by rw [List.length_replicate])

/-- C9: with a valid width, a too-short input slice makes either dispatcher
panic at the `array_ref!` bounds check (release builds included) with the
output untouched; on success the output keeps its length and every position
past the packed/unpacked region; and the result depends only on the
in-bounds part of the input slice. -/
theorem slice_bounds_checked (T W : Nat) (hT : goodT T) (hW1 : 1 ≤ W)
    (hW : W ≤ T) (input output : List Nat) :
    (input.length < 1024 → uncheckedPack T W input output = Except.error output) ∧
    (input.length < 1024 * W / T →
      uncheckedUnpack T W input output = Except.error output) ∧
    (∀ res, uncheckedPack T W input output = Except.ok res →
      res.length = output.length ∧
      ∀ j, 1024 * W / T ≤ j → res.getD j 0 = output.getD j 0) ∧
    (∀ res, uncheckedUnpack T W input output = Except.ok res →
      res.length = output.length ∧
      ∀ j, 1024 ≤ j → res.getD j 0 = output.getD j 0) ∧
    (∀ input', input'.length = input.length →
      (∀ i, i < 1024 → input.getD i 0 = input'.getD i 0) →
      uncheckedPack T W input output = uncheckedPack T W input' output) ∧
    (∀ input', input'.length = input.length →
      (∀ i, i < 1024 * W / T → input.getD i 0 = input'.getD i 0) →
      uncheckedUnpack T W input output = uncheckedUnpack T W input' output) := by
  refine ⟨?_, ?_, ?_, ?_, ?_, ?_⟩
  · intro hshort
    unfold uncheckedPack
    rw [if_pos ⟨hW1, hW⟩, if_neg (by omega)]
  · intro hshort
    unfold uncheckedUnpack
    rw [if_pos ⟨hW1, hW⟩, if_neg (by omega)]
  · intro res h
    unfold uncheckedPack at h
    rw [if_pos ⟨hW1, hW⟩] at h
    by_cases h2 : 1024 ≤ input.length
    · rw [if_pos h2] at h
      by_cases h3 : 1024 * W / T ≤ output.length
      · rw [if_pos h3] at h
        injection h with h'
        have hA : (applyWrites (packWrites T W fun i => input.getD i 0)
            (output.take (1024 * W / T))).length = 1024 * W / T := by
          rw [length_applyWrites]
          simp
          omega
        constructor
        · rw [← h', List.length_append, hA, List.length_drop]
          omega
        · intro j hj
          rw [← h', List.getD_eq_getElem?_getD,
            List.getElem?_append_right (by omega), hA, List.getElem?_drop,
            show 1024 * W / T + (j - 1024 * W / T) = j by omega,
            ← List.getD_eq_getElem?_getD]
      · rw [if_neg h3] at h
        exact Except.noConfusion h
    · rw [if_neg h2] at h
      exact Except.noConfusion h
  · intro res h
    unfold uncheckedUnpack at h
    rw [if_pos ⟨hW1, hW⟩] at h
    by_cases h2 : 1024 * W / T ≤ input.length
    · rw [if_pos h2] at h
      by_cases h3 : 1024 ≤ output.length
      · rw [if_pos h3] at h
        injection h with h'
        have hA : (applyWrites (unpackWrites T W fun j => input.getD j 0)
            (output.take 1024)).length = 1024 := by
          rw [length_applyWrites]
          simp
          omega
        constructor
        · rw [← h', List.length_append, hA, List.length_drop]
          omega
        · intro j hj
          rw [← h', List.getD_eq_getElem?_getD,
            List.getElem?_append_right (by omega), hA, List.getElem?_drop,
            show 1024 + (j - 1024) = j by omega,
            ← List.getD_eq_getElem?_getD]
      · rw [if_neg h3] at h
        exact Except.noConfusion h
    · rw [if_neg h2] at h
      exact Except.noConfusion h
  · intro input' hlen hagree
    unfold uncheckedPack
    rw [hlen, packWrites_congr hT fun k hk => hagree k hk]
  · intro input' hlen hagree
    unfold uncheckedUnpack
    rw [hlen, unpackWrites_congr hT fun k hk => by
      rw [hagree k (by rw [packed_len_eq hT W]; exact hk)]]

/-- Witness for `slice_bounds_checked`: the empty input slice panics. -/
theorem slice_bounds_checked_witness :
    uncheckedPack 8 3 [] [] = Except.error [] :=
  (slice_bounds_checked 8 3 (Or.inl rfl) (by decide) (by decide) [] []).1
    (by decide)

/-! ### Random access: unpack_single -/

lemma unpack_single_eq (T W : Nat) (packed : Nat → Nat) (idx : Nat) :
    unpack_single T W packed idx =
      if W = 0 then 0
      else if W = T then
        packed (LANES T * rows_by_index T idx + lanes_by_index T idx)
      else if T - rows_by_index T idx * W % T ≥ W then
        packed (LANES T * (rows_by_index T idx * W / T) + lanes_by_index T idx) >>>
            (rows_by_index T idx * W % T) &&& (2 ^ (W % T) - 1)
      else
        (packed (LANES T * (rows_by_index T idx * W / T) + lanes_by_index T idx) >>>
            (rows_by_index T idx * W % T) |||
          packed (LANES T * (rows_by_index T idx * W / T + 1) + lanes_by_index T idx) <<<
            (T - rows_by_index T idx * W % T) % 2 ^ T) &&&
          (2 ^ (W % T) - 1) := rfl

lemma lor_disjoint_add {k : Nat} (a c : Nat) (ha : a < 2 ^ k) :
    a ||| c * 2 ^ k = a + c * 2 ^ k := by
  apply Nat.eq_of_testBit_eq
  intro j
  rw [Nat.testBit_or]
  rcases Nat.lt_or_ge j k with hj | hj
  · have hbc : (c * 2 ^ k).testBit j = false := by
      rw [Nat.testBit_to_div_mod]
      have h2 : c * 2 ^ k / 2 ^ j = c * 2 ^ (k - j) := by
        rw [show k = k - j + j by omega, pow_add, ← Nat.mul_assoc,
          Nat.mul_div_cancel _ (pow_pos (by norm_num) j)]
        congr 2
        omega
      rw [h2]
      have h3 : c * 2 ^ (k - j) % 2 = 0 := by
        rw [show k - j = k - j - 1 + 1 by omega, pow_succ, ← Nat.mul_assoc]
        simp [Nat.mul_mod_left]
      simp [h3]
    have hadd : (a + c * 2 ^ k).testBit j = a.testBit j := by
      rw [Nat.testBit_to_div_mod, Nat.testBit_to_div_mod]
      have hdvd : (a + c * 2 ^ k) / 2 ^ j = a / 2 ^ j + c * 2 ^ (k - j) := by
        rw [show c * 2 ^ k = c * 2 ^ (k - j) * 2 ^ j by
          rw [Nat.mul_assoc, ← pow_add]; congr 2; omega]
        exact Nat.add_mul_div_right a _ (pow_pos (by norm_num) j)
      rw [hdvd]
      have hpar : (a / 2 ^ j + c * 2 ^ (k - j)) % 2 = a / 2 ^ j % 2 := by
        rw [show k - j = k - j - 1 + 1 by omega, pow_succ, ← Nat.mul_assoc,
          Nat.add_mul_mod_self_right]
      rw [hpar]
    rw [hadd, hbc, Bool.or_false]
  · have ha0 : a / 2 ^ j = 0 :=
      Nat.div_eq_of_lt (lt_of_lt_of_le ha (Nat.pow_le_pow_right (by norm_num) hj))
    have key : (a + c * 2 ^ k) / 2 ^ j = c / 2 ^ (j - k) := by
      rw [show (2 : Nat) ^ j = 2 ^ k * 2 ^ (j - k) by rw [← pow_add]; congr 1; omega,
        ← Nat.div_div_eq_div_mul, Nat.add_mul_div_right _ _ (pow_pos (by norm_num) k),
        Nat.div_eq_of_lt ha, Nat.zero_add]
    have key2 : c * 2 ^ k / 2 ^ j = c / 2 ^ (j - k) := by
      rw [show (2 : Nat) ^ j = 2 ^ k * 2 ^ (j - k) by rw [← pow_add]; congr 1; omega,
        ← Nat.div_div_eq_div_mul, Nat.mul_div_cancel _ (pow_pos (by norm_num) k)]
    rw [Nat.testBit_to_div_mod, Nat.testBit_to_div_mod, Nat.testBit_to_div_mod,
      key, key2, ha0]
    simp

lemma one_word_read (T W S row : Nat) (hT0 : 0 < T) (hWT : W < T)
    (hrb : W ≤ T - row * W % T) :
    (S / 2 ^ (row * W / T * T) % 2 ^ T) >>> (row * W % T) &&& (2 ^ (W % T) - 1) =
      S / 2 ^ (row * W) % 2 ^ W := by
  have hls : row * W % T < T := Nat.mod_lt _ hT0
  rw [Nat.mod_eq_of_lt hWT, Nat.and_pow_two_sub_one_eq_mod, Nat.shiftRight_eq_div_pow,
    show (2 : Nat) ^ T = 2 ^ (row * W % T) * 2 ^ (T - row * W % T) by
      rw [← pow_add]; congr 1; omega,
    Nat.mod_mul_right_div_self, Nat.div_div_eq_div_mul, ← pow_add,
    show row * W / T * T + row * W % T = row * W by
      rw [Nat.mul_comm]; exact Nat.div_add_mod _ _]
  exact Nat.mod_mod_of_dvd _ (pow_dvd_pow 2 hrb)

lemma two_word_read (T W S row : Nat) (hT0 : 0 < T) (hWT : W < T)
    (hrb : T - row * W % T < W) :
    ((S / 2 ^ (row * W / T * T) % 2 ^ T) >>> (row * W % T) |||
        (S / 2 ^ ((row * W / T + 1) * T) % 2 ^ T) <<< (T - row * W % T) % 2 ^ T) &&&
      (2 ^ (W % T) - 1) = S / 2 ^ (row * W) % 2 ^ W := by
  have hls : row * W % T < T := Nat.mod_lt _ hT0
  have hsplit : T * (row * W / T) + row * W % T = row * W := Nat.div_add_mod _ _
  rw [Nat.mod_eq_of_lt hWT, Nat.and_pow_two_sub_one_eq_mod, Nat.shiftRight_eq_div_pow,
    Nat.shiftLeft_eq]
  have hlo : S / 2 ^ (row * W / T * T) % 2 ^ T / 2 ^ (row * W % T) =
      S / 2 ^ (row * W) % 2 ^ (T - row * W % T) := by
    rw [show (2 : Nat) ^ T = 2 ^ (row * W % T) * 2 ^ (T - row * W % T) by
        rw [← pow_add]; congr 1; omega,
      Nat.mod_mul_right_div_self, Nat.div_div_eq_div_mul, ← pow_add,
      show row * W / T * T + row * W % T = row * W by
        rw [Nat.mul_comm]; exact Nat.div_add_mod _ _]
  have hhi : S / 2 ^ ((row * W / T + 1) * T) % 2 ^ T * 2 ^ (T - row * W % T) % 2 ^ T =
      S / 2 ^ ((row * W / T + 1) * T) % 2 ^ (T - (T - row * W % T)) *
        2 ^ (T - row * W % T) := by
    calc S / 2 ^ ((row * W / T + 1) * T) % 2 ^ T * 2 ^ (T - row * W % T) % 2 ^ T
        = S / 2 ^ ((row * W / T + 1) * T) % 2 ^ T * 2 ^ (T - row * W % T) %
            (2 ^ (T - (T - row * W % T)) * 2 ^ (T - row * W % T)) := by
          rw [← pow_add]
          congr 2
          omega
      _ = S / 2 ^ ((row * W / T + 1) * T) % 2 ^ T % 2 ^ (T - (T - row * W % T)) *
            2 ^ (T - row * W % T) := Nat.mul_mod_mul_right _ _ _
      _ = _ := by rw [Nat.mod_mod_of_dvd _ (pow_dvd_pow 2 (by omega))]
  have hlo_lt : S / 2 ^ (row * W) % 2 ^ (T - row * W % T) < 2 ^ (T - row * W % T) :=
    Nat.mod_lt _ (pow_pos (by norm_num) _)
  rw [hlo, hhi, lor_disjoint_add _ _ hlo_lt,
    show (2 : Nat) ^ W = 2 ^ (T - row * W % T) * 2 ^ (W - (T - row * W % T)) by
      rw [← pow_add]; congr 1; omega,
    Nat.mod_mul, Nat.mod_mul]
  congr 1
  · rw [Nat.add_mul_mod_self_right, Nat.mod_mod_of_dvd _ dvd_rfl]
  · congr 1
    rw [Nat.add_mul_div_right _ _ (pow_pos (by norm_num) _), Nat.div_eq_of_lt hlo_lt,
      Nat.zero_add, Nat.mod_mod_of_dvd _ (pow_dvd_pow 2 (by omega)),
      Nat.div_div_eq_div_mul, ← pow_add,
      show row * W + (T - row * W % T) = (row * W / T + 1) * T from by
        calc row * W + (T - row * W % T)
            = T * (row * W / T) + row * W % T + (T - row * W % T) := by rw [hsplit]
          _ = T * (row * W / T) + T := by omega
          _ = (row * W / T + 1) * T := by ring]

/-- C3: for every supported `T`, every `W ≤ T` and every block `B` whose
elements fit in `W` bits, `unpack_single` applied to the packed block at any
logical index `i < 1024` returns `B i`; moreover it reads at most two packed
words (its result depends on only two positions of the packed buffer), so no
other element is unpacked. -/
theorem unpack_single_agrees (T W : Nat) (hT : goodT T) (hW : W ≤ T)
    (B : Nat → Nat) (hB : ∀ i, i < 1024 → B i < 2 ^ W) (i : Nat) (hi : i < 1024) :
    unpack_single T W (packFn T W B) i = B i ∧
    ∃ j1 j2, ∀ P1 P2 : Nat → Nat, P1 j1 = P2 j1 → P1 j2 = P2 j2 →
      unpack_single T W P1 i = unpack_single T W P2 i := by
  obtain ⟨inv1, _⟩ := invProps_of hT
  obtain ⟨hrow, hlane, hidx⟩ := inv1 i hi
  have hL : 0 < LANES T := lanes_pos hT
  have hT0 : 0 < T := by rcases hT with rfl | rfl | rfl | rfl <;> omega
  have hpackAt : ∀ w, packFn T W B (LANES T * w + lanes_by_index T i) =
      laneStream T W B (lanes_by_index T i) / 2 ^ (w * T) % 2 ^ T := by
    intro w
    unfold packFn packWord
    have h1 : (LANES T * w + lanes_by_index T i) / LANES T = w := by
      rw [Nat.mul_add_div hL, Nat.div_eq_of_lt hlane, Nat.add_zero]
    have h2 : (LANES T * w + lanes_by_index T i) % LANES T = lanes_by_index T i := by
      rw [Nat.mul_add_mod, Nat.mod_eq_of_lt hlane]
    rw [h1, h2]
  have hdigit : laneStream T W B (lanes_by_index T i) /
      2 ^ (rows_by_index T i * W) % 2 ^ W = B i := by
    rw [laneStream_as_digits, Nat.mul_comm (rows_by_index T i) W, pow_mul,
      digit_extract (2 ^ W) (rows_by_index T i) _ T hrow
        fun r _ => Nat.mod_lt _ (pow_pos (by norm_num) W),
      hidx]
    exact Nat.mod_eq_of_lt (hB i hi)
  constructor
  · by_cases hW0 : W = 0
    · subst hW0
      have hB0 : B i = 0 := by
        have := hB i hi
        omega
      simp [unpack_single, hB0]
    by_cases hWT : W = T
    · subst hWT
      rw [unpack_single_eq, if_neg hW0, if_pos rfl, hpackAt]
      exact hdigit
    have hWT' : W < T := by omega
    rw [unpack_single_eq, if_neg hW0, if_neg hWT]
    by_cases hrb : T - rows_by_index T i * W % T ≥ W
    · rw [if_pos hrb, hpackAt]
      exact (one_word_read T W _ (rows_by_index T i) hT0 hWT' hrb).trans hdigit
    · rw [if_neg hrb, hpackAt, hpackAt]
      exact (two_word_read T W _ (rows_by_index T i) hT0 hWT' (by omega)).trans hdigit
  · by_cases hW0 : W = 0
    · exact ⟨0, 0, fun P1 P2 _ _ => by simp [unpack_single, hW0]⟩
    by_cases hWT : W = T
    · refine ⟨LANES T * rows_by_index T i + lanes_by_index T i, 0,
        fun P1 P2 h1 _ => ?_⟩
      rw [unpack_single_eq, unpack_single_eq, if_neg hW0, if_neg hW0,
        if_pos hWT, if_pos hWT, h1]
    · refine ⟨LANES T * (rows_by_index T i * W / T) + lanes_by_index T i,
        LANES T * (rows_by_index T i * W / T + 1) + lanes_by_index T i,
        fun P1 P2 h1 h2 => ?_⟩
      rw [unpack_single_eq, unpack_single_eq, if_neg hW0, if_neg hW0,
        if_neg hWT, if_neg hWT, h1, h2]

/-- Witness for `unpack_single_agrees`: `T = u8`, `W = 5` (a width with
word-straddling elements), `B k = k * 7 % 32`, index 77. -/
theorem unpack_single_agrees_witness :
    unpack_single 8 5 (packFn 8 5 fun k => k * 7 % 32) 77 = 77 * 7 % 32 :=
  (unpack_single_agrees 8 5 (Or.inl rfl) (by decide) (fun k => k * 7 % 32)
    (fun i _ => Nat.mod_lt _ (by decide)) 77 (by decide)).1

end FastLanes
